import Mathlib

/-
Shallow embedding of the FARL agent (src/farl/farl.py): a linear
function-approximation Q-learning agent with a GTD2-style two-weight
update, epsilon-greedy exploration on a linear schedule, and two
feature-encoding strategies.  Real arithmetic of the source is modelled
over the rationals; numpy vectors of length N are modelled as functions
from natural-number indices to rationals (entries beyond N are irrelevant,
every dot product is taken over the first N coordinates), and the
encoders, which build concrete arrays, return lists.
-/

/-- Embedding of `get_linear_fn` (farl.py lines 21-42).  `endv` stands for
the parameter called `end` in the source, which is a reserved word here. -/
def get_linear_fn (start endv end_fraction : ℚ) : ℚ → ℚ :=
  fun progress_remaining =>
    if 1 - progress_remaining > end_fraction then endv
    else start + (1 - progress_remaining) * (endv - start) / end_fraction

/-- Dot product over the first `n` coordinates, embedding `np.dot` on
length-`n` vectors. -/
def dot (n : ℕ) (v w : ℕ → ℚ) : ℚ := ∑ i ∈ Finset.range n, v i * w i

/-- The block-expanded vector built by `_update` via
`x[a * n_obs : (a + 1) * n_obs] = s` on a zero vector: coordinates of
block `a` hold `s`, everything else (the bias coordinate included) is 0. -/
def blockVec (n_obs a : ℕ) (s : ℕ → ℚ) : ℕ → ℚ :=
  fun i => if a * n_obs ≤ i ∧ i < (a + 1) * n_obs then s (i - a * n_obs) else 0

/-- Row `a` of the feature matrix built by `_get_q_values`
(farl.py lines 171-177): zeros, then block `a` receives the state, then the
last column (index `n_obs * n_act`) is set to 1 (bias), overwriting. -/
def featureRow (n_obs n_act a : ℕ) (s : ℕ → ℚ) : ℕ → ℚ :=
  fun i => if i = n_obs * n_act then 1 else blockVec n_obs a s i

/-- Q-value of action `a`: dot product of feature-matrix row `a` with `w`. -/
def qValue (n_obs n_act : ℕ) (w s : ℕ → ℚ) (a : ℕ) : ℚ :=
  dot (n_obs * n_act + 1) (featureRow n_obs n_act a s) w

/-- The array returned by `_get_q_values`: one Q-value per action. -/
def qValuesList (n_obs n_act : ℕ) (w s : ℕ → ℚ) : List ℚ :=
  (List.range n_act).map (qValue n_obs n_act w s)

/-- Linear scan of `np.argmax`: `bi`/`bv` are the best index and value so
far, `i` the index of the head of the remaining list; a strictly greater
value replaces the best, so the first maximum wins. -/
def argmaxGo : ℕ → ℚ → ℕ → List ℚ → ℕ
  | bi, _, _, [] => bi
  | bi, bv, i, x :: xs => if bv < x then argmaxGo i x (i + 1) xs else argmaxGo bi bv (i + 1) xs

/-- `np.argmax` on a list: index of the first maximal entry (0 on the
empty list, where numpy would raise). -/
def npArgmax : List ℚ → ℕ
  | [] => 0
  | x :: xs => argmaxGo 0 x 1 xs

/-- Embedding of `FARL._update` (farl.py lines 193-212).  Returns the pair
(new `w`, new `h`).  `x` is the block vector of `s` at the taken action,
`max_xp` the block vector of `sp` at the first argmax of the Q-values of
`sp`; the `h` update uses the pre-update `h` and the branch delta, as in
the source where `np.dot(x, self.h)` reads `h` before `h +=` commits. -/
def _update (n_obs n_act : ℕ) (gamma alpha beta : ℚ) (w h s : ℕ → ℚ)
    (a : ℕ) (r : ℚ) (sp : ℕ → ℚ) (done : Bool) : (ℕ → ℚ) × (ℕ → ℚ) :=
  let N := n_obs * n_act + 1
  let x := blockVec n_obs a s
  let a_max := npArgmax (qValuesList n_obs n_act w sp)
  let max_xp := blockVec n_obs a_max sp
  if done then
    let delta := r - dot N x w
    (fun i => w i + alpha * delta * x i,
     fun i => h i + beta * (delta - dot N x h) * x i)
  else
    let delta := r + gamma * dot N max_xp w - dot N x w
    (fun i => w i + alpha * (delta * x i - gamma * dot N x h * max_xp i),
     fun i => h i + beta * (delta - dot N x h) * x i)

/-- Embedding of `_action_proba_distribution` (farl.py lines 164-169):
every action gets `exploration_rate / n_act`, and the action at the first
argmax of the Q-values additionally gets `1 - exploration_rate`. -/
def _action_proba_distribution (n_obs n_act : ℕ) (w : ℕ → ℚ)
    (exploration_rate : ℚ) (obs : ℕ → ℚ) : List ℚ :=
  let q_values := qValuesList n_obs n_act w obs
  let best_action := npArgmax q_values
  (List.range n_act).map
    (fun i => exploration_rate / n_act + if i = best_action then 1 - exploration_rate else 0)

/-- Write loop of `_multi_discrete_to_binary`: for each `(n_i, s_i)` pair
(zip stops at the shorter list) set cell `idx + s_i` to 1 and advance
`idx` by `n_i`. -/
def mdToBinaryAux : List ℕ → List ℕ → ℕ → List ℚ → List ℚ
  | n :: ns, s :: ss, idx, acc => mdToBinaryAux ns ss (idx + n) (acc.set (idx + s) 1)
  | _, _, _, acc => acc

/-- Embedding of `_multi_discrete_to_binary` (farl.py lines 185-191); under
the sparse strategy `n_obs` is the sum of the cardinalities. -/
def _multi_discrete_to_binary (nvec s : List ℕ) : List ℚ :=
  mdToBinaryAux nvec s 0 (List.replicate nvec.sum 0)

/-- The `reduce` of `_multi_discrete_to_onehot`: fold
`acc * n_i + s_i` over the remaining dimensions. -/
def mixedRadixFold : List ℕ → List ℕ → ℕ → ℕ
  | n :: ns, s :: ss, acc => mixedRadixFold ns ss (acc * n + s)
  | _, _, acc => acc

/-- The mixed-radix index computed by `_multi_discrete_to_onehot`
(farl.py line 181): start from `s 0` and fold over the later dimensions,
each paired with its own cardinality `nvec i`. -/
def _multi_discrete_to_onehot_idx (nvec s : List ℕ) : ℕ :=
  match s with
  | [] => 0
  | s0 :: ss => mixedRadixFold (nvec.drop 1) ss s0

/-- Embedding of `_multi_discrete_to_onehot` (farl.py lines 179-183); under
the tabular strategy `n_obs` is the product of the cardinalities. -/
def _multi_discrete_to_onehot (nvec s : List ℕ) : List ℚ :=
  (List.replicate nvec.prod 0).set (_multi_discrete_to_onehot_idx nvec s) 1

/-- The environment surface `FARL.__init__` reads: a MultiDiscrete
observation space given by its cardinality vector, and a discrete action
count. -/
structure EnvSpace where
  nvec : List ℕ
  n_act : ℕ

/-- Which feature representation the agent was configured with; `__init__`
rejects every string other than these two. -/
inductive FeatureRep
  | fsr
  | tabular
deriving DecidableEq

/-- The attribute dictionary of a `FARL` instance.  `env` and
`exploration_schedule` are `Option`s because `save` deletes exactly these
two attributes from the live instance. -/
structure FARL where
  env : Option EnvSpace
  exploration_schedule : Option (ℚ → ℚ)
  exploration_rate : ℚ
  gamma : ℚ
  alpha : ℚ
  beta : ℚ
  verbose : Bool
  feature_representation : FeatureRep
  obs_nvec : List ℕ
  n_obs : ℕ
  n_act : ℕ
  w : ℕ → ℚ
  h : ℕ → ℚ

/-- Embedding of `FARL.__init__` (farl.py lines 59-108).  `w0`/`h0` stand
for the uniform random draws for `w`/`h`; the constructor then zeroes the
bias coordinate (the last one, index `n_obs * n_act`) of both. -/
def FARL.init (env : EnvSpace) (exploration_initial_eps exploration_final_eps
    exploration_fraction gamma alpha : ℚ) (beta : Option ℚ) (verbose : Bool)
    (feature_representation : FeatureRep) (w0 h0 : ℕ → ℚ) : FARL :=
  let sched := get_linear_fn exploration_initial_eps exploration_final_eps exploration_fraction
  let n_obs := match feature_representation with
    | .fsr => env.nvec.sum
    | .tabular => env.nvec.prod
  { env := some env
    exploration_schedule := some sched
    exploration_rate := sched 1
    gamma := gamma
    alpha := alpha
    beta := beta.getD (alpha / 100)
    verbose := verbose
    feature_representation := feature_representation
    obs_nvec := env.nvec
    n_obs := n_obs
    n_act := env.n_act
    w := fun i => if i = n_obs * env.n_act then 0 else w0 i
    h := fun i => if i = n_obs * env.n_act then 0 else h0 i }

/-- Embedding of `FARL.save` (farl.py lines 220-227): `dct` aliases the
live `__dict__`, so deleting `env` and `exploration_schedule` mutates the
agent itself.  Returns (agent state after the call, pickled record); both
components are the very same dictionary. -/
def FARL.save (st : FARL) : FARL × FARL :=
  let dct := { st with env := none, exploration_schedule := none }
  (dct, dct)

/-- Embedding of `FARL.load` (farl.py lines 229-239): construct a fresh
agent `obj = FARL(env)` with all-default parameters (`w0`/`h0` model its
random draws), then the pickled dictionary, updated with the caller's
`env` and the fresh object's `exploration_schedule`, becomes the loaded
agent's entire state. -/
def FARL.load (saved : FARL) (env : EnvSpace) (w0 h0 : ℕ → ℚ) : FARL :=
  let obj := FARL.init env 1 (1 / 20) (1 / 10) (9 / 10) (1 / 100000) none false .fsr w0 h0
  { saved with env := some env, exploration_schedule := obj.exploration_schedule }

/-- Claim C2 fails as stated: with `start = 1`, `end = 0`,
`end_fraction = 1` (which satisfies `0 < end_fraction ≤ 1`), the schedule
does not take the value `end` at `progress_remaining = end_fraction`. -/
theorem get_linear_fn_claim_cex :
    (0 : ℚ) < 1 ∧ (1 : ℚ) ≤ 1 ∧ get_linear_fn 1 0 1 1 ≠ 0 := by
  refine ⟨one_pos, le_refl 1, ?_⟩
  norm_num [get_linear_fn]

/-- Claim C2 (amended): for `0 < end_fraction ≤ 1` the schedule satisfies
`f 1 = start`, `f (1 - end_fraction) = end`, and `f p = end` for every
`p ≤ 1 - end_fraction` (the flat tail starts once the elapsed fraction
`1 - p` reaches `end_fraction`, not at `p = end_fraction`). -/
theorem get_linear_fn_boundary (start endv end_fraction : ℚ)
    (h0 : 0 < end_fraction) (h1 : end_fraction ≤ 1) :
    get_linear_fn start endv end_fraction 1 = start
    ∧ get_linear_fn start endv end_fraction (1 - end_fraction) = endv
    ∧ ∀ p, p ≤ 1 - end_fraction → get_linear_fn start endv end_fraction p = endv := by
  have hne : end_fraction ≠ 0 := ne_of_gt h0
  refine ⟨?_, ?_, ?_⟩
  · simp only [get_linear_fn]
    rw [if_neg (by simp; linarith)]
    ring
  · simp only [get_linear_fn]
    rw [if_neg (by simp)]
    field_simp
  · intro p hp
    rcases lt_or_eq_of_le hp with hlt | heq
    · simp only [get_linear_fn]
      rw [if_pos (by linarith)]
    · subst heq
      simp only [get_linear_fn]
      rw [if_neg (by simp)]
      field_simp

/-- Witness for the amended claim C2 at `start = 3`, `end = 2`,
`end_fraction = 1/2`. -/
theorem get_linear_fn_boundary_witness :
    get_linear_fn 3 2 (1 / 2) 1 = 3
    ∧ get_linear_fn 3 2 (1 / 2) (1 - 1 / 2) = 2
    ∧ ∀ p, p ≤ 1 - (1 / 2 : ℚ) → get_linear_fn 3 2 (1 / 2) p = 2 :=
  get_linear_fn_boundary 3 2 (1 / 2) (by norm_num) (by norm_num)

/-- Claim C1: the update consumes `(s, a, r, sp, done)`; with `x` the
length-`(n_obs * n_act + 1)` vector holding `s` in block `a` and zero
elsewhere (bias included) and `max_xp` the analogous vector for `sp` at
the first argmax of the Q-values of `sp`: if not done,
`delta = r + gamma * dot max_xp w - dot x w` and
`w := w + alpha * (delta * x - gamma * dot x h * max_xp)`; if done,
`delta = r - dot x w` and `w := w + alpha * delta * x`; in both cases
`h := h + beta * (delta - dot x h) * x`. -/
theorem update_formula (n_obs n_act : ℕ) (gamma alpha beta : ℚ)
    (w h s sp : ℕ → ℚ) (a : ℕ) (r : ℚ) :
    (_update n_obs n_act gamma alpha beta w h s a r sp false =
      (fun i => w i + alpha *
          ((r + gamma * dot (n_obs * n_act + 1)
                (blockVec n_obs (npArgmax (qValuesList n_obs n_act w sp)) sp) w
              - dot (n_obs * n_act + 1) (blockVec n_obs a s) w)
            * blockVec n_obs a s i
          - gamma * dot (n_obs * n_act + 1) (blockVec n_obs a s) h
            * blockVec n_obs (npArgmax (qValuesList n_obs n_act w sp)) sp i),
       fun i => h i + beta *
          ((r + gamma * dot (n_obs * n_act + 1)
                (blockVec n_obs (npArgmax (qValuesList n_obs n_act w sp)) sp) w
              - dot (n_obs * n_act + 1) (blockVec n_obs a s) w)
            - dot (n_obs * n_act + 1) (blockVec n_obs a s) h)
          * blockVec n_obs a s i))
    ∧ (_update n_obs n_act gamma alpha beta w h s a r sp true =
      (fun i => w i + alpha * (r - dot (n_obs * n_act + 1) (blockVec n_obs a s) w)
          * blockVec n_obs a s i,
       fun i => h i + beta * ((r - dot (n_obs * n_act + 1) (blockVec n_obs a s) w)
            - dot (n_obs * n_act + 1) (blockVec n_obs a s) h)
          * blockVec n_obs a s i)) :=
  ⟨rfl, rfl⟩

/-- Claim C4: on a terminal transition (`done = true`) the update is
independent of the successor feature vector: two runs agreeing on
everything but `sp` produce identical new `w` and `h`. -/
theorem terminal_update_ignores_successor (n_obs n_act : ℕ) (gamma alpha beta : ℚ)
    (w h s sp1 sp2 : ℕ → ℚ) (a : ℕ) (r : ℚ) :
    _update n_obs n_act gamma alpha beta w h s a r sp1 true
      = _update n_obs n_act gamma alpha beta w h s a r sp2 true := by
  have e : ∀ sp : ℕ → ℚ, _update n_obs n_act gamma alpha beta w h s a r sp true
      = (fun i => w i
            + alpha * (r - dot (n_obs * n_act + 1) (blockVec n_obs a s) w)
              * blockVec n_obs a s i,
         fun i => h i
            + beta * ((r - dot (n_obs * n_act + 1) (blockVec n_obs a s) w)
                - dot (n_obs * n_act + 1) (blockVec n_obs a s) h)
              * blockVec n_obs a s i) := fun _ => rfl
  exact (e sp1).trans (e sp2).symm

/-- Claim C9: `save` mutates the agent itself: afterwards the agent's own
state lacks `env` and `exploration_schedule` (the pickled record is the
very same dictionary), while `w`, `h` and every configuration scalar are
unchanged. -/
theorem save_removes_env_and_schedule (st : FARL) :
    (st.save.1.env = none ∧ st.save.1.exploration_schedule = none)
    ∧ st.save.1 = st.save.2
    ∧ st.save.1.w = st.w ∧ st.save.1.h = st.h
    ∧ st.save.1.exploration_rate = st.exploration_rate
    ∧ st.save.1.gamma = st.gamma ∧ st.save.1.alpha = st.alpha
    ∧ st.save.1.beta = st.beta ∧ st.save.1.verbose = st.verbose
    ∧ st.save.1.feature_representation = st.feature_representation
    ∧ st.save.1.obs_nvec = st.obs_nvec
    ∧ st.save.1.n_obs = st.n_obs ∧ st.save.1.n_act = st.n_act :=
  ⟨⟨rfl, rfl⟩, rfl, rfl, rfl, rfl, rfl, rfl, rfl, rfl, rfl, rfl, rfl, rfl⟩

/-- Claim C3 fails as stated: saving an agent constructed with
exploration parameters `(0, 0, 1/10)` and loading it back yields a
schedule that is NOT `get_linear_fn 0 0 (1/10)` (the parameters are not
persisted; `load` rebuilds the schedule from the constructor defaults). -/
theorem load_schedule_claim_cex :
    ¬ ((((FARL.init ⟨[2], 2⟩ 0 0 (1 / 10) (9 / 10) (1 / 100000) none false .fsr
            (fun _ => 0) (fun _ => 0)).save).2.load ⟨[2], 2⟩ (fun _ => 0)
            (fun _ => 0)).exploration_schedule
        = some (get_linear_fn 0 0 (1 / 10))) := by
  intro hcontra
  have hsome : (some (get_linear_fn 1 (1 / 20) (1 / 10)) : Option (ℚ → ℚ))
      = some (get_linear_fn 0 0 (1 / 10)) := hcontra
  have h1 : get_linear_fn 1 (1 / 20) (1 / 10) 1 = get_linear_fn 0 0 (1 / 10) 1 :=
    congrFun (Option.some.inj hsome) 1
  norm_num [get_linear_fn] at h1

/-- Claim C3 (amended): after `load`, the exploration schedule is the one
built by `get_linear_fn` from the three DEFAULT exploration parameters
`(1, 1/20, 1/10)`, whatever exploration parameters the saved agent was
constructed with (those three parameters are not persisted at all). -/
theorem load_schedule_defaults (env env2 : EnvSpace)
    (i0 f0 fr0 gamma alpha : ℚ) (beta : Option ℚ) (verbose : Bool)
    (frep : FeatureRep) (w0 h0 w1 h1 : ℕ → ℚ) :
    (((FARL.init env i0 f0 fr0 gamma alpha beta verbose frep w0 h0).save).2.load
        env2 w1 h1).exploration_schedule
      = some (get_linear_fn 1 (1 / 20) (1 / 10)) := rfl

/-- The `getD` of a mapped range list below its length. -/
lemma getD_map_range (f : ℕ → ℚ) {n i : ℕ} (hi : i < n) :
    ((List.range n).map f).getD i 0 = f i := by
  rw [List.getD_eq_getElem?_getD, List.getElem?_map, List.getElem?_range hi]
  rfl

/-- Claim C5: for `a < n_act`, the Q-value computed for action `a` is the
dot product of `w` with the vector holding `s` at columns
`[a * n_obs, (a+1) * n_obs)`, 1 in the last (bias) column, and 0
elsewhere. -/
theorem q_value_block_dot (n_obs n_act a : ℕ) (w s : ℕ → ℚ) (ha : a < n_act) :
    (qValuesList n_obs n_act w s).getD a 0
      = dot (n_obs * n_act + 1)
          (fun i => if a * n_obs ≤ i ∧ i < (a + 1) * n_obs then s (i - a * n_obs)
                    else if i = n_obs * n_act then 1 else 0) w := by
  rw [qValuesList, getD_map_range _ ha]
  unfold qValue dot
  refine Finset.sum_congr rfl ?_
  intro i hi
  have hiN : i < n_obs * n_act + 1 := Finset.mem_range.mp hi
  have hblock : (a + 1) * n_obs ≤ n_obs * n_act := by
    calc (a + 1) * n_obs ≤ n_act * n_obs := Nat.mul_le_mul_right _ ha
    _ = n_obs * n_act := Nat.mul_comm _ _
  by_cases hbias : i = n_obs * n_act
  · subst hbias
    have hnotblock : ¬ (a * n_obs ≤ n_obs * n_act ∧ n_obs * n_act < (a + 1) * n_obs) := by
      rintro ⟨-, hlt⟩
      exact absurd hblock (Nat.not_le_of_lt hlt)
    simp [featureRow, hnotblock]
  · simp [featureRow, blockVec, hbias]

/-- Witness for claim C5's theorem at `n_obs = 1`, `n_act = 2`, `a = 1`,
with concrete weight and state vectors. -/
theorem q_value_block_dot_witness :
    (qValuesList 1 2 (fun i => (i : ℚ)) (fun i => (i : ℚ) + 1)).getD 1 0
      = dot (1 * 2 + 1)
          (fun i => if 1 * 1 ≤ i ∧ i < (1 + 1) * 1 then ((i - 1 * 1 : ℕ) : ℚ) + 1
                    else if i = 1 * 2 then 1 else 0) (fun i => (i : ℚ)) :=
  q_value_block_dot 1 2 1 (fun i => (i : ℚ)) (fun i => (i : ℚ) + 1) (by norm_num)

/-- Sum of a mapped range list as a `Finset.range` sum. -/
lemma list_sum_map_range (f : ℕ → ℚ) (n : ℕ) :
    ((List.range n).map f).sum = ∑ i ∈ Finset.range n, f i := by
  induction n with
  | zero => simp
  | succ n ih =>
    rw [List.range_succ, List.map_append, List.sum_append, Finset.sum_range_succ, ih]
    simp

/-- The argmax scan returns either the incumbent index or an index of the
remaining suffix, so it stays below `i + xs.length` when `bi < i`. -/
lemma argmaxGo_lt (xs : List ℚ) : ∀ bi bv i, bi < i → argmaxGo bi bv i xs < i + xs.length := by
  induction xs with
  | nil =>
    intro bi bv i hbi
    simpa [argmaxGo] using hbi
  | cons x xs ih =>
    intro bi bv i hbi
    simp only [argmaxGo, List.length_cons]
    by_cases hc : bv < x
    · rw [if_pos hc]
      have hrec := ih i x (i + 1) (Nat.lt_succ_self i)
      omega
    · rw [if_neg hc]
      have hrec := ih bi bv (i + 1) (Nat.lt_succ_of_lt hbi)
      omega

/-- `np.argmax` of a nonempty list is a valid index. -/
lemma npArgmax_lt_length (l : List ℚ) (hl : l ≠ []) : npArgmax l < l.length := by
  cases l with
  | nil => exact absurd rfl hl
  | cons x xs =>
    have hrec := argmaxGo_lt xs 0 x 1 Nat.zero_lt_one
    simp only [npArgmax, List.length_cons]
    omega

/-- Claim C8: for any exploration rate `e` and action count `n_act ≥ 1`,
the epsilon-greedy action-probability vector sums to 1, gives every
non-best action exactly `e / n_act`, and gives the best action (the first
argmax of the Q-values) `e / n_act + (1 - e)`. -/
theorem eps_greedy_proba_mass (n_obs n_act : ℕ) (w obs : ℕ → ℚ) (e : ℚ)
    (hk : 1 ≤ n_act) :
    (_action_proba_distribution n_obs n_act w e obs).sum = 1
    ∧ (∀ i, i < n_act → i ≠ npArgmax (qValuesList n_obs n_act w obs) →
        (_action_proba_distribution n_obs n_act w e obs).getD i 0 = e / n_act)
    ∧ (_action_proba_distribution n_obs n_act w e obs).getD
        (npArgmax (qValuesList n_obs n_act w obs)) 0 = e / n_act + (1 - e) := by
  have hk0 : (n_act : ℚ) ≠ 0 := Nat.cast_ne_zero.mpr (by omega)
  have hbest : npArgmax (qValuesList n_obs n_act w obs) < n_act := by
    have hlen : (qValuesList n_obs n_act w obs).length = n_act := by simp [qValuesList]
    have hne : qValuesList n_obs n_act w obs ≠ [] := by
      intro hnil
      rw [hnil] at hlen
      simp at hlen
      omega
    have hlt := npArgmax_lt_length _ hne
    rwa [hlen] at hlt
  refine ⟨?_, ?_, ?_⟩
  · show ((List.range n_act).map
      (fun i => e / n_act
        + if i = npArgmax (qValuesList n_obs n_act w obs) then 1 - e else 0)).sum = 1
    rw [list_sum_map_range]
    have hsum : ∑ i ∈ Finset.range n_act,
        (e / n_act + if i = npArgmax (qValuesList n_obs n_act w obs) then 1 - e else 0)
        = (n_act : ℚ) * (e / n_act) + (1 - e) := by
      rw [Finset.sum_add_distrib, Finset.sum_const, Finset.card_range, nsmul_eq_mul,
        Finset.sum_ite_eq' (Finset.range n_act)
          (npArgmax (qValuesList n_obs n_act w obs)) (fun _ => 1 - e),
        if_pos (Finset.mem_range.mpr hbest)]
    rw [hsum, ← mul_div_assoc, mul_div_cancel_left₀ e hk0]
    ring
  · intro i hi hne
    show ((List.range n_act).map
      (fun i => e / n_act
        + if i = npArgmax (qValuesList n_obs n_act w obs) then 1 - e else 0)).getD i 0
        = e / n_act
    rw [getD_map_range _ hi, if_neg hne, add_zero]
  · show ((List.range n_act).map
      (fun i => e / n_act
        + if i = npArgmax (qValuesList n_obs n_act w obs) then 1 - e else 0)).getD
        (npArgmax (qValuesList n_obs n_act w obs)) 0
        = e / n_act + (1 - e)
    rw [getD_map_range _ hbest, if_pos rfl]

/-- Witness for claim C8's theorem with two actions and exploration rate
1/3 on a concrete weight vector and observation. -/
theorem eps_greedy_proba_mass_witness :
    (_action_proba_distribution 1 2 (fun i => (i : ℚ)) (1 / 3) (fun _ => 1)).sum = 1
    ∧ (∀ i, i < 2 → i ≠ npArgmax (qValuesList 1 2 (fun i => (i : ℚ)) (fun _ => 1)) →
        (_action_proba_distribution 1 2 (fun i => (i : ℚ)) (1 / 3) (fun _ => 1)).getD i 0
          = (1 / 3 : ℚ) / 2)
    ∧ (_action_proba_distribution 1 2 (fun i => (i : ℚ)) (1 / 3) (fun _ => 1)).getD
        (npArgmax (qValuesList 1 2 (fun i => (i : ℚ)) (fun _ => 1))) 0
          = (1 / 3 : ℚ) / 2 + (1 - 1 / 3) :=
  eps_greedy_proba_mass 1 2 (fun i => (i : ℚ)) (fun _ => 1) (1 / 3) (by norm_num)

/-- `getD` after `set` at a different index. -/
lemma getD_set_ne (l : List ℚ) (a : ℚ) {i j : ℕ} (hij : i ≠ j) :
    (l.set i a).getD j 0 = l.getD j 0 := by
  rw [List.getD_eq_getElem?_getD, List.getElem?_set_ne hij, ← List.getD_eq_getElem?_getD]

/-- `getD` after `set` at the written (in-bounds) index. -/
lemma getD_set_self (l : List ℚ) (a : ℚ) {i : ℕ} (hi : i < l.length) :
    (l.set i a).getD i 0 = a := by
  rw [List.getD_eq_getElem?_getD, List.getElem?_set_self hi]
  rfl

/-- Every `getD` of an all-zero list is zero. -/
lemma getD_replicate_zero {n j : ℕ} : (List.replicate n (0 : ℚ)).getD j 0 = 0 := by
  by_cases hj : j < n
  · rw [List.getD_eq_getElem?_getD, List.getElem?_replicate]
    simp [hj]
  · exact List.getD_eq_default _ _ (by simpa using Nat.le_of_not_lt hj)

/-- Sum after an in-bounds `set`. -/
lemma sum_set_getD (l : List ℚ) : ∀ (i : ℕ), i < l.length → ∀ a : ℚ,
    (l.set i a).sum = l.sum - l.getD i 0 + a := by
  induction l with
  | nil => intro i hi; simp at hi
  | cons x xs ih =>
    intro i hi a
    cases i with
    | zero => simp [List.getD_cons_zero]; ring
    | succ i =>
      have hi' : i < xs.length := by simpa using hi
      simp only [List.set, List.sum_cons, List.getD_cons_succ, ih i hi' a]
      ring

/-- The write loop never changes the length of the accumulator. -/
lemma mdToBinaryAux_length (ns : List ℕ) : ∀ (ss : List ℕ) (idx : ℕ) (acc : List ℚ),
    (mdToBinaryAux ns ss idx acc).length = acc.length := by
  induction ns with
  | nil => intro ss idx acc; rfl
  | cons n ns ih =>
    intro ss idx acc
    cases ss with
    | nil => rfl
    | cons s ss =>
      show (mdToBinaryAux ns ss (idx + n) (acc.set (idx + s) 1)).length = acc.length
      rw [ih, List.length_set]

/-- A cell hit by none of the writes keeps its accumulator value. -/
lemma mdToBinaryAux_getD_miss (ns : List ℕ) : ∀ (ss : List ℕ) (idx : ℕ) (acc : List ℚ) (j : ℕ),
    (∀ k, k < ns.length → j ≠ idx + ((ns.take k).sum + ss.getD k 0)) →
    (mdToBinaryAux ns ss idx acc).getD j 0 = acc.getD j 0 := by
  induction ns with
  | nil => intro ss idx acc j _; rfl
  | cons n ns ih =>
    intro ss idx acc j hmiss
    cases ss with
    | nil => rfl
    | cons s ss =>
      show (mdToBinaryAux ns ss (idx + n) (acc.set (idx + s) 1)).getD j 0 = acc.getD j 0
      have h0 := hmiss 0 (Nat.succ_pos _)
      simp only [List.take, List.sum_nil, List.getD_cons_zero, Nat.zero_add] at h0
      rw [ih ss (idx + n) _ j ?_]
      · exact getD_set_ne _ _ (fun he => h0 (by omega))
      · intro k hk
        have hk1 := hmiss (k + 1) (by simpa using Nat.succ_lt_succ hk)
        simp only [List.take, List.sum_cons, List.getD_cons_succ] at hk1
        omega

/-- Each write lands on 1 in the final result: later writes live in later
sub-ranges, so they cannot overwrite it. -/
lemma mdToBinaryAux_getD_hit (ns : List ℕ) : ∀ (ss : List ℕ) (idx : ℕ) (acc : List ℚ),
    ss.length = ns.length →
    (∀ k, k < ns.length → ss.getD k 0 < ns.getD k 0) →
    idx + ns.sum ≤ acc.length →
    ∀ k, k < ns.length →
    (mdToBinaryAux ns ss idx acc).getD (idx + ((ns.take k).sum + ss.getD k 0)) 0 = 1 := by
  induction ns with
  | nil => intro ss idx acc _ _ _ k hk; simp at hk
  | cons n ns ih =>
    intro ss idx acc hlen hvalid hbound k hk
    cases ss with
    | nil => simp at hlen
    | cons s ss =>
      have hs0 : s < n := by simpa using hvalid 0 (Nat.succ_pos _)
      have hsum : n + ns.sum = (n :: ns).sum := by simp
      cases k with
      | zero =>
        simp only [List.take, List.sum_nil, List.getD_cons_zero, Nat.zero_add]
        show (mdToBinaryAux ns ss (idx + n) (acc.set (idx + s) 1)).getD (idx + s) 0 = 1
        rw [mdToBinaryAux_getD_miss ns ss (idx + n) _ (idx + s) (fun k hk => by omega)]
        exact getD_set_self _ _ (by simp at hbound ⊢; omega)
      | succ k =>
        have hk' : k < ns.length := by simpa using hk
        have hidx : idx + (((n :: ns).take (k + 1)).sum + (s :: ss).getD (k + 1) 0)
            = (idx + n) + ((ns.take k).sum + ss.getD k 0) := by
          simp only [List.take, List.sum_cons, List.getD_cons_succ]
          omega
        rw [hidx]
        refine ih ss (idx + n) _ (by simpa using hlen) ?_ ?_ k hk'
        · intro k hk
          simpa using hvalid (k + 1) (by simpa using Nat.succ_lt_succ hk)
        · rw [List.length_set]
          simp at hbound ⊢
          omega

/-- The write loop adds exactly one 1 per dimension to the sum, provided
every cell from `idx` on is still zero. -/
lemma mdToBinaryAux_sum (ns : List ℕ) : ∀ (ss : List ℕ) (idx : ℕ) (acc : List ℚ),
    ss.length = ns.length →
    (∀ k, k < ns.length → ss.getD k 0 < ns.getD k 0) →
    idx + ns.sum ≤ acc.length →
    (∀ j, idx ≤ j → acc.getD j 0 = 0) →
    (mdToBinaryAux ns ss idx acc).sum = acc.sum + ns.length := by
  induction ns with
  | nil => intro ss idx acc _ _ _ _; simp; rfl
  | cons n ns ih =>
    intro ss idx acc hlen hvalid hbound hz
    cases ss with
    | nil => simp at hlen
    | cons s ss =>
      have hs0 : s < n := by simpa using hvalid 0 (Nat.succ_pos _)
      have hin : idx + s < acc.length := by simp at hbound; omega
      show (mdToBinaryAux ns ss (idx + n) (acc.set (idx + s) 1)).sum = acc.sum + ((n :: ns).length : ℚ)
      rw [ih ss (idx + n) _ (by simpa using hlen)
          (fun k hk => by simpa using hvalid (k + 1) (by simpa using Nat.succ_lt_succ hk))
          (by rw [List.length_set]; simp at hbound ⊢; omega)
          (fun j hj => by
            rw [getD_set_ne _ _ (by omega)]
            exact hz j (by omega))]
      rw [sum_set_getD acc (idx + s) hin 1, hz (idx + s) (Nat.le_add_right _ _),
        List.length_cons]
      push_cast
      ring

/-- Claim C6: for a valid observation, the sparse (fsr) encoding has
length the sum of the cardinalities, value 1 at each coordinate
`offset_k + s_k` (with `offset_k` the sum of the cardinalities of the
dimensions before `k`), value 0 at every other coordinate, and coordinate
sum equal to the number of dimensions. -/
theorem fsr_encoding_mass (nvec s : List ℕ)
    (hlen : s.length = nvec.length)
    (hvalid : ∀ k, k < nvec.length → s.getD k 0 < nvec.getD k 0) :
    (_multi_discrete_to_binary nvec s).length = nvec.sum
    ∧ (∀ k, k < nvec.length →
        (_multi_discrete_to_binary nvec s).getD ((nvec.take k).sum + s.getD k 0) 0 = 1)
    ∧ (∀ j, j < nvec.sum →
        (∀ k, k < nvec.length → j ≠ (nvec.take k).sum + s.getD k 0) →
        (_multi_discrete_to_binary nvec s).getD j 0 = 0)
    ∧ (_multi_discrete_to_binary nvec s).sum = nvec.length := by
  have hbound : 0 + nvec.sum ≤ (List.replicate nvec.sum (0 : ℚ)).length := by
    simp
  refine ⟨?_, ?_, ?_, ?_⟩
  · show (mdToBinaryAux nvec s 0 (List.replicate nvec.sum 0)).length = nvec.sum
    rw [mdToBinaryAux_length, List.length_replicate]
  · intro k hk
    have hhit := mdToBinaryAux_getD_hit nvec s 0 (List.replicate nvec.sum 0)
      hlen hvalid hbound k hk
    rwa [Nat.zero_add] at hhit
  · intro j hj hne
    show (mdToBinaryAux nvec s 0 (List.replicate nvec.sum 0)).getD j 0 = 0
    rw [mdToBinaryAux_getD_miss nvec s 0 _ j (fun k hk => by
      have := hne k hk
      omega)]
    exact getD_replicate_zero
  · show (mdToBinaryAux nvec s 0 (List.replicate nvec.sum 0)).sum = (nvec.length : ℚ)
    rw [mdToBinaryAux_sum nvec s 0 _ hlen hvalid hbound
      (fun j _ => getD_replicate_zero)]
    simp

/-- Witness for claim C6's theorem on the descriptor `[2, 3]` and the
observation `[1, 2]`. -/
theorem fsr_encoding_mass_witness :
    (_multi_discrete_to_binary [2, 3] [1, 2]).length = [2, 3].sum
    ∧ (∀ k, k < [2, 3].length →
        (_multi_discrete_to_binary [2, 3] [1, 2]).getD
          (([2, 3].take k).sum + [1, 2].getD k 0) 0 = 1)
    ∧ (∀ j, j < [2, 3].sum →
        (∀ k, k < [2, 3].length → j ≠ ([2, 3].take k).sum + [1, 2].getD k 0) →
        (_multi_discrete_to_binary [2, 3] [1, 2]).getD j 0 = 0)
    ∧ (_multi_discrete_to_binary [2, 3] [1, 2]).sum = [2, 3].length :=
  fsr_encoding_mass [2, 3] [1, 2] (by decide) (by decide)

/-- The mixed-radix fold stays below `A` times the product of the
remaining cardinalities when the accumulator is below `A`. -/
lemma mixedRadixFold_lt (ns : List ℕ) : ∀ (ss : List ℕ) (acc A : ℕ),
    ss.length = ns.length →
    (∀ k, k < ns.length → ss.getD k 0 < ns.getD k 0) →
    acc < A →
    mixedRadixFold ns ss acc < A * ns.prod := by
  induction ns with
  | nil =>
    intro ss acc A _ _ hA
    have hfold : mixedRadixFold [] ss acc = acc := rfl
    rw [hfold, List.prod_nil, Nat.mul_one]
    exact hA
  | cons n ns ih =>
    intro ss acc A hlen hvalid hA
    cases ss with
    | nil => simp at hlen
    | cons s ss =>
      have hs : s < n := by simpa using hvalid 0 (Nat.succ_pos _)
      have hstep : acc * n + s < A * n := by
        calc acc * n + s < acc * n + n := by omega
          _ = (acc + 1) * n := by ring
          _ ≤ A * n := Nat.mul_le_mul_right n hA
      have hrec := ih ss (acc * n + s) (A * n) (by simpa using hlen)
        (fun k hk => by simpa using hvalid (k + 1) (by simpa using Nat.succ_lt_succ hk)) hstep
      show mixedRadixFold ns ss (acc * n + s) < A * (n :: ns).prod
      rw [List.prod_cons]
      calc mixedRadixFold ns ss (acc * n + s) < A * n * ns.prod := hrec
        _ = A * (n * ns.prod) := by ring

/-- The mixed-radix fold is injective in the accumulator and the digit
list, for digits below their cardinalities and accumulators below `A`. -/
lemma mixedRadixFold_inj (ns : List ℕ) : ∀ (ss tt : List ℕ) (acc1 acc2 A : ℕ),
    ss.length = ns.length → tt.length = ns.length →
    (∀ k, k < ns.length → ss.getD k 0 < ns.getD k 0) →
    (∀ k, k < ns.length → tt.getD k 0 < ns.getD k 0) →
    acc1 < A → acc2 < A →
    mixedRadixFold ns ss acc1 = mixedRadixFold ns tt acc2 →
    acc1 = acc2 ∧ ss = tt := by
  induction ns with
  | nil =>
    intro ss tt acc1 acc2 A hss htt _ _ _ _ heq
    have hss0 : ss = [] := List.length_eq_zero.mp (by simpa using hss)
    have htt0 : tt = [] := List.length_eq_zero.mp (by simpa using htt)
    subst hss0
    subst htt0
    exact ⟨heq, rfl⟩
  | cons n ns ih =>
    intro ss tt acc1 acc2 A hss htt hvs hvt h1 h2 heq
    cases ss with
    | nil => simp at hss
    | cons s ss =>
      cases tt with
      | nil => simp at htt
      | cons t tt =>
        have hsn : s < n := by simpa using hvs 0 (Nat.succ_pos _)
        have htn : t < n := by simpa using hvt 0 (Nat.succ_pos _)
        have hn : 0 < n := Nat.lt_of_le_of_lt (Nat.zero_le s) hsn
        have hstep1 : acc1 * n + s < A * n := by
          calc acc1 * n + s < acc1 * n + n := by omega
            _ = (acc1 + 1) * n := by ring
            _ ≤ A * n := Nat.mul_le_mul_right n h1
        have hstep2 : acc2 * n + t < A * n := by
          calc acc2 * n + t < acc2 * n + n := by omega
            _ = (acc2 + 1) * n := by ring
            _ ≤ A * n := Nat.mul_le_mul_right n h2
        have heq' : mixedRadixFold ns ss (acc1 * n + s) = mixedRadixFold ns tt (acc2 * n + t) := heq
        obtain ⟨hacc, hrest⟩ := ih ss tt (acc1 * n + s) (acc2 * n + t) (A * n)
          (by simpa using hss) (by simpa using htt)
          (fun k hk => by simpa using hvs (k + 1) (by simpa using Nat.succ_lt_succ hk))
          (fun k hk => by simpa using hvt (k + 1) (by simpa using Nat.succ_lt_succ hk))
          hstep1 hstep2 heq'
        have e1 : n * acc1 + s = n * acc2 + t := by
          rw [Nat.mul_comm n acc1, Nat.mul_comm n acc2]
          exact hacc
        have d1 : (n * acc1 + s) / n = acc1 := by
          rw [Nat.mul_add_div hn, Nat.div_eq_of_lt hsn, Nat.add_zero]
        have d2 : (n * acc2 + t) / n = acc2 := by
          rw [Nat.mul_add_div hn, Nat.div_eq_of_lt htn, Nat.add_zero]
        have ha : acc1 = acc2 := by rw [← d1, ← d2, e1]
        have hst : s = t := by
          have e2 := e1
          rw [ha] at e2
          exact Nat.add_left_cancel e2
        exact ⟨ha, by rw [hst, hrest]⟩

/-- The mixed-radix index of a valid nonempty observation is below the
product of the cardinalities. -/
lemma onehot_idx_lt (nvec s : List ℕ) (hlen : s.length = nvec.length) (hne : s ≠ [])
    (hvalid : ∀ k, k < nvec.length → s.getD k 0 < nvec.getD k 0) :
    _multi_discrete_to_onehot_idx nvec s < nvec.prod := by
  cases s with
  | nil => exact absurd rfl hne
  | cons s0 ss =>
    cases nvec with
    | nil => simp at hlen
    | cons n0 ns =>
      have hs0 : s0 < n0 := by simpa using hvalid 0 (Nat.succ_pos _)
      have hrec := mixedRadixFold_lt ns ss s0 n0 (by simpa using hlen)
        (fun k hk => by simpa using hvalid (k + 1) (by simpa using Nat.succ_lt_succ hk)) hs0
      show mixedRadixFold ((n0 :: ns).drop 1) ss s0 < (n0 :: ns).prod
      rw [List.drop_one, List.tail_cons, List.prod_cons]
      exact hrec

/-- Claim C7: for valid observations, the tabular encoding is 1 exactly at
the mixed-radix index and 0 at every other coordinate, and two distinct
valid observations under the same descriptor get different indices. -/
theorem tabular_encoding_onehot_injective (nvec s t : List ℕ)
    (hs_len : s.length = nvec.length) (hs_ne : s ≠ [])
    (hs_v : ∀ k, k < nvec.length → s.getD k 0 < nvec.getD k 0)
    (ht_len : t.length = nvec.length)
    (ht_v : ∀ k, k < nvec.length → t.getD k 0 < nvec.getD k 0) :
    ((_multi_discrete_to_onehot nvec s).getD (_multi_discrete_to_onehot_idx nvec s) 0 = 1
      ∧ ∀ j, j < nvec.prod → j ≠ _multi_discrete_to_onehot_idx nvec s →
          (_multi_discrete_to_onehot nvec s).getD j 0 = 0)
    ∧ (s ≠ t →
        _multi_discrete_to_onehot_idx nvec s ≠ _multi_discrete_to_onehot_idx nvec t) := by
  have hidx := onehot_idx_lt nvec s hs_len hs_ne hs_v
  refine ⟨⟨?_, ?_⟩, ?_⟩
  · exact getD_set_self _ _ (by simpa using hidx)
  · intro j hj hne
    rw [_multi_discrete_to_onehot, getD_set_ne _ _ (Ne.symm hne)]
    exact getD_replicate_zero
  · intro hst hideq
    cases s with
    | nil => exact hs_ne rfl
    | cons s0 ss =>
      cases t with
      | nil =>
        have h0 : nvec.length = 0 := by simpa using ht_len.symm
        rw [h0] at hs_len
        simp at hs_len
      | cons t0 tt =>
        cases nvec with
        | nil => simp at hs_len
        | cons n0 ns =>
          have hs0 : s0 < n0 := by simpa using hs_v 0 (Nat.succ_pos _)
          have ht0 : t0 < n0 := by simpa using ht_v 0 (Nat.succ_pos _)
          have heq' : mixedRadixFold ns ss s0 = mixedRadixFold ns tt t0 := hideq
          obtain ⟨h0, hrest⟩ := mixedRadixFold_inj ns ss tt s0 t0 n0
            (by simpa using hs_len) (by simpa using ht_len)
            (fun k hk => by simpa using hs_v (k + 1) (by simpa using Nat.succ_lt_succ hk))
            (fun k hk => by simpa using ht_v (k + 1) (by simpa using Nat.succ_lt_succ hk))
            hs0 ht0 heq'
          exact hst (by rw [h0, hrest])

/-- Witness for claim C7's theorem on the descriptor `[2, 3]` with the
distinct valid observations `[1, 2]` and `[0, 0]`. -/
theorem tabular_encoding_onehot_injective_witness :
    ((_multi_discrete_to_onehot [2, 3] [1, 2]).getD
        (_multi_discrete_to_onehot_idx [2, 3] [1, 2]) 0 = 1
      ∧ ∀ j, j < [2, 3].prod → j ≠ _multi_discrete_to_onehot_idx [2, 3] [1, 2] →
          (_multi_discrete_to_onehot [2, 3] [1, 2]).getD j 0 = 0)
    ∧ (([1, 2] : List ℕ) ≠ [0, 0] →
        _multi_discrete_to_onehot_idx [2, 3] [1, 2]
          ≠ _multi_discrete_to_onehot_idx [2, 3] [0, 0]) :=
  tabular_encoding_onehot_injective [2, 3] [1, 2] [0, 0]
    (by decide) (by decide) (by decide) (by decide) (by decide)

/-- The block-expanded vector of any action below `n_act` is 0 at the bias
coordinate `n_obs * n_act`: every block ends at or before it. -/
lemma blockVec_bias_eq_zero {n_obs n_act b : ℕ} (v : ℕ → ℚ) (hb : b < n_act) :
    blockVec n_obs b v (n_obs * n_act) = 0 := by
  have hle : (b + 1) * n_obs ≤ n_obs * n_act := by
    calc (b + 1) * n_obs ≤ n_act * n_obs := Nat.mul_le_mul_right _ hb
      _ = n_obs * n_act := Nat.mul_comm _ _
  simp only [blockVec]
  rw [if_neg]
  rintro ⟨-, hlt⟩
  omega

/-- Claim C10: the bias coordinate (index `n_obs * n_act`) of both weight
vectors is 0 at construction; the update leaves it at 0 on every
transition (both update vectors vanish there); and with a zero bias
weight, the bias column contributes nothing to any Q-value: the Q-value
dot product equals the dot product against the bias-free block vector. -/
theorem bias_coordinate_invariant
    (envsp : EnvSpace) (i0 f0 fr0 gamma0 alpha0 : ℚ) (beta0 : Option ℚ)
    (verbose0 : Bool) (frep : FeatureRep) (w0 h0 : ℕ → ℚ)
    (n_obs n_act a : ℕ) (gamma alpha beta r : ℚ) (w h s sp : ℕ → ℚ) (done : Bool)
    (hk : 0 < n_act) (ha : a < n_act)
    (hw : w (n_obs * n_act) = 0) (hh : h (n_obs * n_act) = 0) :
    ((FARL.init envsp i0 f0 fr0 gamma0 alpha0 beta0 verbose0 frep w0 h0).w
        ((FARL.init envsp i0 f0 fr0 gamma0 alpha0 beta0 verbose0 frep w0 h0).n_obs
          * (FARL.init envsp i0 f0 fr0 gamma0 alpha0 beta0 verbose0 frep w0 h0).n_act) = 0
      ∧ (FARL.init envsp i0 f0 fr0 gamma0 alpha0 beta0 verbose0 frep w0 h0).h
        ((FARL.init envsp i0 f0 fr0 gamma0 alpha0 beta0 verbose0 frep w0 h0).n_obs
          * (FARL.init envsp i0 f0 fr0 gamma0 alpha0 beta0 verbose0 frep w0 h0).n_act) = 0)
    ∧ ((_update n_obs n_act gamma alpha beta w h s a r sp done).1 (n_obs * n_act) = 0
      ∧ (_update n_obs n_act gamma alpha beta w h s a r sp done).2 (n_obs * n_act) = 0)
    ∧ dot (n_obs * n_act + 1) (featureRow n_obs n_act a s) w
        = dot (n_obs * n_act + 1) (blockVec n_obs a s) w := by
  have hamax : npArgmax (qValuesList n_obs n_act w sp) < n_act := by
    have hlen : (qValuesList n_obs n_act w sp).length = n_act := by simp [qValuesList]
    have hne : qValuesList n_obs n_act w sp ≠ [] := by
      intro hnil
      rw [hnil] at hlen
      simp at hlen
      omega
    have hlt := npArgmax_lt_length _ hne
    rwa [hlen] at hlt
  have hx : blockVec n_obs a s (n_obs * n_act) = 0 := blockVec_bias_eq_zero s ha
  have hxp : blockVec n_obs (npArgmax (qValuesList n_obs n_act w sp)) sp (n_obs * n_act) = 0 :=
    blockVec_bias_eq_zero sp hamax
  refine ⟨?_, ?_, ?_⟩
  · cases frep <;> exact ⟨by simp [FARL.init], by simp [FARL.init]⟩
  · cases done with
    | false =>
      constructor
      · show (_update n_obs n_act gamma alpha beta w h s a r sp false).1 (n_obs * n_act) = 0
        simp only [_update]
        simp [hx, hxp, hw]
      · show (_update n_obs n_act gamma alpha beta w h s a r sp false).2 (n_obs * n_act) = 0
        simp only [_update]
        simp [hx, hh]
    | true =>
      constructor
      · show (_update n_obs n_act gamma alpha beta w h s a r sp true).1 (n_obs * n_act) = 0
        simp only [_update]
        simp [hx, hw]
      · show (_update n_obs n_act gamma alpha beta w h s a r sp true).2 (n_obs * n_act) = 0
        simp only [_update]
        simp [hx, hh]
  · unfold dot
    refine Finset.sum_congr rfl ?_
    intro i hi
    by_cases hbias : i = n_obs * n_act
    · subst hbias
      rw [hw, mul_zero, mul_zero]
    · simp [featureRow, hbias]

/-- Witness for claim C10's theorem on a concrete agent (descriptor `[2]`,
two actions) and a concrete non-terminal transition with zero-bias weight
vectors. -/
theorem bias_coordinate_invariant_witness :
    ((FARL.init ⟨[2], 2⟩ 1 0 1 1 1 none false .fsr (fun _ => 1) (fun _ => 1)).w
        ((FARL.init ⟨[2], 2⟩ 1 0 1 1 1 none false .fsr (fun _ => 1) (fun _ => 1)).n_obs
          * (FARL.init ⟨[2], 2⟩ 1 0 1 1 1 none false .fsr (fun _ => 1) (fun _ => 1)).n_act) = 0
      ∧ (FARL.init ⟨[2], 2⟩ 1 0 1 1 1 none false .fsr (fun _ => 1) (fun _ => 1)).h
        ((FARL.init ⟨[2], 2⟩ 1 0 1 1 1 none false .fsr (fun _ => 1) (fun _ => 1)).n_obs
          * (FARL.init ⟨[2], 2⟩ 1 0 1 1 1 none false .fsr (fun _ => 1) (fun _ => 1)).n_act) = 0)
    ∧ ((_update 1 2 1 1 1 (fun _ => 0) (fun _ => 0) (fun _ => 1) 0 1 (fun _ => 1) false).1
          (1 * 2) = 0
      ∧ (_update 1 2 1 1 1 (fun _ => 0) (fun _ => 0) (fun _ => 1) 0 1 (fun _ => 1) false).2
          (1 * 2) = 0)
    ∧ dot (1 * 2 + 1) (featureRow 1 2 0 (fun _ => 1)) (fun _ => 0)
        = dot (1 * 2 + 1) (blockVec 1 0 (fun _ => 1)) (fun _ => 0) :=
  bias_coordinate_invariant ⟨[2], 2⟩ 1 0 1 1 1 none false .fsr (fun _ => 1) (fun _ => 1)
    1 2 0 1 1 1 1 (fun _ => 0) (fun _ => 0) (fun _ => 1) (fun _ => 1) false
    (by norm_num) (by norm_num) rfl rfl
